import Mathlib

/-!
Verification of the yggdrasil channel/driver runtime specification against
the repository's sources.  The visible repository consists of example
manifests (`yggdrasil/examples/ascii_io/ascii_io_c.yml`, and a Matlab
counterpart), one example model (`cis_interface/examples/helloPar/src/helloPar.cpp`)
and a build script; the orchestrator and per-language client library are
not part of the visible source.  Where a definition embeds such missing
code, its doc comment starts with `Modelled from the spec:` and names the
missing component; everything else is embedded directly from the files
under `src/`.
-/

namespace Ygg

/-! ## Table driver scalar values

Modelled from the spec (§4.1, Table driver): a record is an ordered
sequence of named, typed scalar fields; at least numeric, string and
complex-number types, each with a defined text representation and a
round-trip-exact parse.  Numeric fields are modelled as integers (the
examples exchange integer-valued columns); complex numbers as a pair of
integer parts.  Strings are carried as `List Char` so the byte stream is
explicit. -/

inductive FieldType where
  | num : FieldType
  | str : FieldType
  | cplx : FieldType
deriving DecidableEq, Repr

inductive FieldValue where
  | fnum : Int → FieldValue
  | fstr : List Char → FieldValue
  | fcplx : Int → Int → FieldValue
deriving DecidableEq, Repr

/-- The scalar type of a field value. -/
def FieldValue.ftype : FieldValue → FieldType
  | .fnum _ => .num
  | .fstr _ => .str
  | .fcplx _ _ => .cplx

/-! ### Decimal digits -/

/-- Inverse of `Nat.digitChar` on decimal digits. -/
def charDigit (c : Char) : Option Nat :=
  if '0' ≤ c ∧ c ≤ '9' then some (c.toNat - '0'.toNat) else none

/-- Decimal digits of `n`, least significant first, with explicit fuel so
the recursion is structural.  `natDigits` instantiates the fuel at `n`,
which is always enough. -/
def natDigitsF : Nat → Nat → List Nat
  | 0, _ => []
  | f + 1, n => if n = 0 then [] else n % 10 :: natDigitsF f (n / 10)

def natDigits (n : Nat) : List Nat := natDigitsF n n

/-- Value of a least-significant-first digit list. -/
def ofRevDigits (ds : List Nat) : Nat :=
  ds.foldr (fun d acc => acc * 10 + d) 0

/-- Value of a most-significant-first digit list. -/
def msbVal (ds : List Nat) : Nat :=
  ds.foldl (fun acc d => acc * 10 + d) 0

/-- Decimal text of a natural number (most significant digit first). -/
def natEnc (n : Nat) : List Char :=
  if n = 0 then ['0'] else ((natDigits n).map Nat.digitChar).reverse

/-- Parse a (nonempty) run of decimal digit characters. -/
def decDigits : List Char → Option (List Nat)
  | [] => some []
  | c :: cs =>
    match charDigit c, decDigits cs with
    | some d, some ds => some (d :: ds)
    | _, _ => none

def parseNat (cs : List Char) : Option Nat :=
  match decDigits cs with
  | some [] => none
  | some ds => some (msbVal ds)
  | none => none

/-- Decimal text of an integer: a leading `-` for strictly negative values. -/
def intEnc (i : Int) : List Char :=
  if i < 0 then '-' :: natEnc (-i).toNat else natEnc i.toNat

def parseInt : List Char → Option Int
  | [] => none
  | c :: cs =>
    if c = '-' then (parseNat cs).map (fun n => -(n : Int))
    else (parseNat (c :: cs)).map (fun n => (n : Int))

theorem ofRevDigits_natDigitsF (f : Nat) :
    ∀ n, n ≤ f → ofRevDigits (natDigitsF f n) = n := by
  induction f with
  | zero =>
    intro n hn
    interval_cases n
    simp [natDigitsF, ofRevDigits]
  | succ f ih =>
    intro n hn
    by_cases h0 : n = 0
    · simp [natDigitsF, h0, ofRevDigits]
    · have hdiv : n / 10 < n := Nat.div_lt_self (Nat.pos_of_ne_zero h0) (by norm_num)
      have hle : n / 10 ≤ f := by omega
      simp only [natDigitsF, h0, if_false, ofRevDigits, List.foldr_cons]
      have := ih (n / 10) hle
      simp only [ofRevDigits] at this
      rw [this]
      omega

theorem ofRevDigits_natDigits (n : Nat) : ofRevDigits (natDigits n) = n :=
  ofRevDigits_natDigitsF n n le_rfl

theorem natDigitsF_lt (f : Nat) : ∀ n, ∀ d ∈ natDigitsF f n, d < 10 := by
  induction f with
  | zero => intro n d hd; simp [natDigitsF] at hd
  | succ f ih =>
    intro n d hd
    by_cases h0 : n = 0
    · simp [natDigitsF, h0] at hd
    · simp only [natDigitsF, h0, if_false, List.mem_cons] at hd
      rcases hd with h | h
      · subst h; exact Nat.mod_lt _ (by norm_num)
      · exact ih _ _ h

theorem natDigits_lt (n : Nat) : ∀ d ∈ natDigits n, d < 10 :=
  natDigitsF_lt n n

theorem natDigits_ne_nil (n : Nat) (hn : n ≠ 0) : natDigits n ≠ [] := by
  cases n with
  | zero => exact absurd rfl hn
  | succ m => simp [natDigits, natDigitsF, hn]

theorem charDigit_digitChar_fin :
    ∀ d : Fin 10, charDigit (Nat.digitChar d.val) = some d.val := by decide

theorem charDigit_digitChar {d : Nat} (hd : d < 10) :
    charDigit (Nat.digitChar d) = some d :=
  charDigit_digitChar_fin ⟨d, hd⟩

theorem decDigits_map_digitChar (ds : List Nat) (h : ∀ d ∈ ds, d < 10) :
    decDigits (ds.map Nat.digitChar) = some ds := by
  induction ds with
  | nil => rfl
  | cons d ds ih =>
    have hd : d < 10 := h d (List.mem_cons_self _ _)
    have hds : ∀ x ∈ ds, x < 10 := fun x hx => h x (List.mem_cons_of_mem _ hx)
    simp only [List.map_cons, decDigits, charDigit_digitChar hd, ih hds]

theorem msbVal_reverse (ds : List Nat) : msbVal ds.reverse = ofRevDigits ds := by
  simp [msbVal, ofRevDigits, List.foldl_reverse]

theorem parseNat_natEnc (n : Nat) : parseNat (natEnc n) = some n := by
  by_cases h0 : n = 0
  · subst h0; decide
  · have hne : natDigits n ≠ [] := natDigits_ne_nil n h0
    have hlt := natDigits_lt n
    have hrev : ∀ d ∈ (natDigits n).reverse, d < 10 := by
      intro d hd; exact hlt d (List.mem_reverse.mp hd)
    simp only [natEnc, h0, if_false, parseNat, ← List.map_reverse,
      decDigits_map_digitChar _ hrev]
    have hne2 : (natDigits n).reverse ≠ [] := by
      simpa using hne
    cases hrv : (natDigits n).reverse with
    | nil => exact absurd hrv hne2
    | cons a as =>
      simp only
      rw [← hrv, msbVal_reverse, ofRevDigits_natDigits]

/-- Every character of `natEnc n` is a decimal digit character. -/
theorem natEnc_mem (n : Nat) : ∀ c ∈ natEnc n, ∃ d, d < 10 ∧ c = Nat.digitChar d := by
  intro c hc
  by_cases h0 : n = 0
  · subst h0
    have hc0 : c = '0' := by simpa [natEnc] using hc
    exact ⟨0, by norm_num, by rw [hc0]; rfl⟩
  · simp only [natEnc, h0, if_false, List.mem_reverse, List.mem_map] at hc
    obtain ⟨d, hd, hcd⟩ := hc
    exact ⟨d, natDigits_lt n d hd, hcd.symm⟩

theorem digitChar_props :
    ∀ d : Fin 10, Nat.digitChar d.val ≠ '-' ∧ Nat.digitChar d.val ≠ ',' ∧
      Nat.digitChar d.val ≠ '\n' ∧ Nat.digitChar d.val ≠ '+' ∧
      Nat.digitChar d.val ≠ '\\' := by decide

theorem natEnc_no_dash (n : Nat) : ∀ c ∈ natEnc n, c ≠ '-' := by
  intro c hc
  obtain ⟨d, hd, rfl⟩ := natEnc_mem n c hc
  exact (digitChar_props ⟨d, hd⟩).1

theorem natEnc_ne_nil (n : Nat) : natEnc n ≠ [] := by
  by_cases h0 : n = 0
  · simp [natEnc, h0]
  · have := natDigits_ne_nil n h0
    simp [natEnc, h0, this]

theorem parseInt_intEnc (i : Int) : parseInt (intEnc i) = some i := by
  by_cases hneg : i < 0
  · have hpos : 0 < -i := by omega
    have htn : ((-i).toNat : Int) = -i := Int.toNat_of_nonneg (by omega)
    simp [intEnc, if_pos hneg, parseInt, parseNat_natEnc, htn]
  · have htn : (i.toNat : Int) = i := Int.toNat_of_nonneg (by omega)
    simp only [intEnc, if_neg hneg]
    cases henc : natEnc i.toNat with
    | nil => exact absurd henc (natEnc_ne_nil _)
    | cons c cs =>
      have hcne : c ≠ '-' := natEnc_no_dash i.toNat c (by rw [henc]; exact List.mem_cons_self _ _)
      simp only [parseInt, if_neg hcne, ← henc, parseNat_natEnc, Option.map_some]
      simp [htn]


/-! ### String field escaping

The field delimiter is `,` and the row terminator is `\n`; string fields
escape both (and the escape character itself) so that every string has a
round-trip-exact text representation, as §4.1 requires. -/

def escChar (c : Char) : List Char :=
  if c = '\\' then ['\\', '\\']
  else if c = ',' then ['\\', 'c']
  else if c = '\n' then ['\\', 'n']
  else [c]

def escape : List Char → List Char
  | [] => []
  | c :: cs => escChar c ++ escape cs

def unescape : List Char → Option (List Char)
  | [] => some []
  | c :: rest =>
    if c = '\\' then
      match rest with
      | [] => none
      | e :: rest2 =>
        if e = '\\' then (unescape rest2).map (fun s => '\\' :: s)
        else if e = 'c' then (unescape rest2).map (fun s => ',' :: s)
        else if e = 'n' then (unescape rest2).map (fun s => '\n' :: s)
        else none
    else (unescape rest).map (fun s => c :: s)

theorem unescape_escape (s : List Char) : unescape (escape s) = some s := by
  induction s with
  | nil => rfl
  | cons c cs ih =>
    by_cases h1 : c = '\\'
    · subst h1
      simp [escape, escChar, unescape, ih]
    · by_cases h2 : c = ','
      · subst h2
        simp [escape, escChar, unescape, ih]
      · by_cases h3 : c = '\n'
        · subst h3
          simp [escape, escChar, unescape, ih]
        · have hesc : escChar c = [c] := by simp [escChar, h1, h2, h3]
          have hstep : unescape (c :: escape cs) =
              (unescape (escape cs)).map (fun s => c :: s) := by
            conv_lhs => rw [unescape.eq_def]
            simp only [if_neg h1]
          simp [escape, hesc, hstep, ih]

theorem escape_avoids (s : List Char) :
    ∀ c ∈ escape s, c ≠ ',' ∧ c ≠ '\n' := by
  induction s with
  | nil => intro c hc; simp [escape] at hc
  | cons a as ih =>
    intro c hc
    simp only [escape, List.mem_append] at hc
    rcases hc with hc | hc
    · by_cases h1 : a = '\\'
      · subst h1; simp [escChar] at hc
        subst hc; exact ⟨by decide, by decide⟩
      · by_cases h2 : a = ','
        · subst h2; simp [escChar] at hc
          rcases hc with rfl | rfl <;> exact ⟨by decide, by decide⟩
        · by_cases h3 : a = '\n'
          · subst h3; simp [escChar, h1] at hc
            rcases hc with rfl | rfl <;> exact ⟨by decide, by decide⟩
          · simp [escChar, h1, h2, h3] at hc
            subst hc
            exact ⟨h2, h3⟩
    · exact ih c hc

/-! ### Delimited text: splitting and joining -/

/-- Split a character list at every occurrence of the delimiter `d`.
Always returns at least one (possibly empty) part. -/
def splitAll (d : Char) : List Char → List (List Char)
  | [] => [[]]
  | c :: cs =>
    if c = d then [] :: splitAll d cs
    else
      match splitAll d cs with
      | [] => [[c]]
      | p :: ps => (c :: p) :: ps

/-- Join parts with a single delimiter character between consecutive parts. -/
def joinChar (d : Char) : List (List Char) → List Char
  | [] => []
  | [p] => p
  | p :: q :: ps => p ++ d :: joinChar d (q :: ps)

/-- Split at the first occurrence of `d` only. -/
def splitOnce (d : Char) : List Char → Option (List Char × List Char)
  | [] => none
  | c :: cs =>
    if c = d then some ([], cs)
    else (splitOnce d cs).map (fun pr => (c :: pr.1, pr.2))

theorem splitAll_ne_nil (d : Char) (cs : List Char) : splitAll d cs ≠ [] := by
  induction cs with
  | nil => simp [splitAll]
  | cons c cs ih =>
    by_cases h : c = d
    · simp [splitAll, h]
    · simp only [splitAll, if_neg h]
      cases hs : splitAll d cs with
      | nil => simp
      | cons p ps => simp

theorem splitAll_dfree (d : Char) (xs : List Char) (h : ∀ c ∈ xs, c ≠ d) :
    splitAll d xs = [xs] := by
  induction xs with
  | nil => rfl
  | cons c cs ih =>
    have hc : c ≠ d := h c (List.mem_cons_self _ _)
    have hcs : ∀ x ∈ cs, x ≠ d := fun x hx => h x (List.mem_cons_of_mem _ hx)
    simp only [splitAll, if_neg hc, ih hcs]

theorem splitAll_append (d : Char) (xs ys : List Char) (h : ∀ c ∈ xs, c ≠ d) :
    splitAll d (xs ++ d :: ys) = xs :: splitAll d ys := by
  induction xs with
  | nil => simp [splitAll]
  | cons c cs ih =>
    have hc : c ≠ d := h c (List.mem_cons_self _ _)
    have hcs : ∀ x ∈ cs, x ≠ d := fun x hx => h x (List.mem_cons_of_mem _ hx)
    simp only [List.cons_append, splitAll, if_neg hc, List.append_eq]
    rw [ih hcs]

theorem splitAll_joinChar (d : Char) (parts : List (List Char))
    (hne : parts ≠ []) (h : ∀ p ∈ parts, ∀ c ∈ p, c ≠ d) :
    splitAll d (joinChar d parts) = parts := by
  induction parts with
  | nil => exact absurd rfl hne
  | cons p ps ih =>
    cases ps with
    | nil =>
      simp only [joinChar]
      exact splitAll_dfree d p (h p (List.mem_cons_self _ _))
    | cons q qs =>
      have hjoin : joinChar d (p :: q :: qs) = p ++ d :: joinChar d (q :: qs) := rfl
      rw [hjoin, splitAll_append d p _ (h p (List.mem_cons_self _ _))]
      have := ih (by simp) (fun x hx c hc => h x (List.mem_cons_of_mem _ hx) c hc)
      rw [this]

theorem splitOnce_append (d : Char) (xs ys : List Char) (h : ∀ c ∈ xs, c ≠ d) :
    splitOnce d (xs ++ d :: ys) = some (xs, ys) := by
  induction xs with
  | nil => simp [splitOnce]
  | cons c cs ih =>
    have hc : c ≠ d := h c (List.mem_cons_self _ _)
    have hcs : ∀ x ∈ cs, x ≠ d := fun x hx => h x (List.mem_cons_of_mem _ hx)
    simp only [List.cons_append, splitOnce, if_neg hc, List.append_eq]
    rw [ih hcs]
    rfl

/-! ### Field and record encoding (table driver) -/

/-- Modelled from the spec (§4.1): the serialized text body of one field.
Numeric fields print in decimal, string fields escape the delimiter
characters, complex fields print as `re+imj`. -/
def encFieldBody : FieldValue → List Char
  | .fnum n => intEnc n
  | .fstr s => escape s
  | .fcplx re im => intEnc re ++ '+' :: (intEnc im ++ ['j'])

/-- Modelled from the spec (§4.1): type-directed decoding of one field
body; the channel declaration's field order resolves column identity. -/
def decField : FieldType → List Char → Option FieldValue
  | .num, cs => (parseInt cs).map .fnum
  | .str, cs => (unescape cs).map .fstr
  | .cplx, cs =>
    match splitOnce '+' cs with
    | none => none
    | some (a, b) =>
      if b.getLast? = some 'j' then
        match parseInt a, parseInt b.dropLast with
        | some re, some im => some (.fcplx re im)
        | _, _ => none
      else none

theorem intEnc_mem (i : Int) :
    ∀ c ∈ intEnc i, c = '-' ∨ ∃ d, d < 10 ∧ c = Nat.digitChar d := by
  intro c hc
  by_cases hneg : i < 0
  · simp only [intEnc, if_pos hneg, List.mem_cons] at hc
    rcases hc with rfl | hc
    · exact Or.inl rfl
    · exact Or.inr (natEnc_mem _ c hc)
  · simp only [intEnc, if_neg hneg] at hc
    exact Or.inr (natEnc_mem _ c hc)

theorem intEnc_avoids (i : Int) :
    ∀ c ∈ intEnc i, c ≠ ',' ∧ c ≠ '\n' ∧ c ≠ '+' := by
  intro c hc
  rcases intEnc_mem i c hc with rfl | ⟨d, hd, rfl⟩
  · exact ⟨by decide, by decide, by decide⟩
  · obtain ⟨-, h2, h3, h4, -⟩ := digitChar_props ⟨d, hd⟩
    exact ⟨h2, h3, h4⟩

theorem encFieldBody_avoids (v : FieldValue) :
    ∀ c ∈ encFieldBody v, c ≠ ',' ∧ c ≠ '\n' := by
  intro c hc
  cases v with
  | fnum n =>
    simp only [encFieldBody] at hc
    obtain ⟨h1, h2, -⟩ := intEnc_avoids n c hc
    exact ⟨h1, h2⟩
  | fstr s =>
    simp only [encFieldBody] at hc
    exact escape_avoids s c hc
  | fcplx re im =>
    simp only [encFieldBody, List.mem_append, List.mem_cons,
      List.mem_singleton] at hc
    rcases hc with hc | rfl | hc | rfl | hF
    · obtain ⟨h1, h2, -⟩ := intEnc_avoids re c hc
      exact ⟨h1, h2⟩
    · exact ⟨by decide, by decide⟩
    · obtain ⟨h1, h2, -⟩ := intEnc_avoids im c hc
      exact ⟨h1, h2⟩
    · exact ⟨by decide, by decide⟩
    · exact absurd hF (List.not_mem_nil c)

theorem decField_encFieldBody (v : FieldValue) :
    decField v.ftype (encFieldBody v) = some v := by
  cases v with
  | fnum n => simp [FieldValue.ftype, decField, encFieldBody, parseInt_intEnc]
  | fstr s => simp [FieldValue.ftype, decField, encFieldBody, unescape_escape]
  | fcplx re im =>
    have hplus : ∀ c ∈ intEnc re, c ≠ '+' := fun c hc => (intEnc_avoids re c hc).2.2
    simp only [FieldValue.ftype, decField, encFieldBody,
      splitOnce_append '+' _ _ hplus]
    rw [List.getLast?_concat, List.dropLast_concat]
    simp [parseInt_intEnc]

/-- Modelled from the spec (§4.1): one table row serialized as
comma-delimited text of its field bodies. -/
def encodeRecord (r : List FieldValue) : List Char :=
  joinChar ',' (r.map encFieldBody)

/-- Decode a list of field bodies against the declared field order. -/
def decodeFields : List FieldType → List (List Char) → Option (List FieldValue)
  | [], [] => some []
  | t :: ts, p :: ps =>
    match decField t p, decodeFields ts ps with
    | some v, some vs => some (v :: vs)
    | _, _ => none
  | _, _ => none

/-- Modelled from the spec (§4.1): decode one comma-delimited row against
the declared field order (`field_names` resolves column identity). -/
def decodeRecord (types : List FieldType) (cs : List Char) : Option (List FieldValue) :=
  decodeFields types (splitAll ',' cs)

theorem decodeFields_enc (r : List FieldValue) :
    decodeFields (r.map FieldValue.ftype) (r.map encFieldBody) = some r := by
  induction r with
  | nil => rfl
  | cons v vs ih =>
    simp only [List.map_cons, decodeFields, decField_encFieldBody v, ih]

theorem decodeRecord_encodeRecord (r : List FieldValue) (hne : r ≠ []) :
    decodeRecord (r.map FieldValue.ftype) (encodeRecord r) = some r := by
  have hmapne : r.map encFieldBody ≠ [] := by simpa using hne
  have havoid : ∀ p ∈ r.map encFieldBody, ∀ c ∈ p, c ≠ ',' := by
    intro p hp c hc
    simp only [List.mem_map] at hp
    obtain ⟨v, -, rfl⟩ := hp
    exact (encFieldBody_avoids v c hc).1
  simp only [decodeRecord, encodeRecord,
    splitAll_joinChar ',' _ hmapne havoid, decodeFields_enc]

/-! ### Array driver (`as_array: true`)

Modelled from the spec (§4.1, Array driver): an entire column set for many
rows is one fixed-shape block; each row is one newline-terminated line of
the table text. -/

def encodeArray (rows : List (List FieldValue)) : List Char :=
  rows.flatMap (fun r => encodeRecord r ++ ['\n'])

/-- Decode each line of the array block against the declared field order. -/
def decodeLines (types : List FieldType) :
    List (List Char) → Option (List (List FieldValue))
  | [] => some []
  | l :: ls =>
    match decodeRecord types l, decodeLines types ls with
    | some r, some rs => some (r :: rs)
    | _, _ => none

/-- Modelled from the spec (§4.1): decode one whole-table array message.
The block is a sequence of newline-terminated lines; the part after the
final newline is empty and is dropped. -/
def decodeArray (types : List FieldType) (cs : List Char) :
    Option (List (List FieldValue)) :=
  decodeLines types (splitAll '\n' cs).dropLast

theorem encodeRecord_avoids_newline (r : List FieldValue) :
    ∀ c ∈ encodeRecord r, c ≠ '\n' := by
  intro c hc
  induction r with
  | nil => simp [encodeRecord, joinChar] at hc
  | cons v vs ih =>
    cases vs with
    | nil =>
      simp only [encodeRecord, List.map_cons, List.map_nil, joinChar] at hc
      exact (encFieldBody_avoids v c hc).2
    | cons w ws =>
      have hj : encodeRecord (v :: w :: ws) =
          encFieldBody v ++ ',' :: encodeRecord (w :: ws) := rfl
      rw [hj] at hc
      simp only [List.mem_append, List.mem_cons] at hc
      rcases hc with hc | rfl | hc
      · exact (encFieldBody_avoids v c hc).2
      · decide
      · exact ih (by simpa [encodeRecord] using hc)

theorem splitAll_encodeArray (rows : List (List FieldValue)) :
    splitAll '\n' (encodeArray rows) = rows.map encodeRecord ++ [[]] := by
  induction rows with
  | nil => simp [encodeArray, splitAll]
  | cons r rs ih =>
    have hstep : encodeArray (r :: rs) =
        encodeRecord r ++ '\n' :: encodeArray rs := by
      simp [encodeArray, List.flatMap_cons, List.append_assoc]
    rw [hstep, splitAll_append '\n' _ _ (encodeRecord_avoids_newline r), ih]
    simp

theorem decodeArray_encodeArray (rows : List (List FieldValue))
    (types : List FieldType)
    (htypes : ∀ r ∈ rows, r.map FieldValue.ftype = types)
    (hne : ∀ r ∈ rows, r ≠ []) :
    decodeArray types (encodeArray rows) = some rows := by
  rw [decodeArray, splitAll_encodeArray rows]
  rw [List.dropLast_concat]
  induction rows with
  | nil => rfl
  | cons r rs ih =>
    have ht : r.map FieldValue.ftype = types := htypes r (List.mem_cons_self _ _)
    have hr : r ≠ [] := hne r (List.mem_cons_self _ _)
    have hdec : decodeRecord types (encodeRecord r) = some r := by
      rw [← ht]; exact decodeRecord_encodeRecord r hr
    simp only [List.map_cons, decodeLines, hdec]
    rw [ih (fun x hx => htypes x (List.mem_cons_of_mem _ hx))
      (fun x hx => hne x (List.mem_cons_of_mem _ hx))]

/-! ## Manifest data model

Embedded from the example manifests under `src/` (§3 of the spec).  A
channel declaration carries the YAML keys `name`, `driver`, `args`,
`as_array`, `in_temp` and `field_names`; absent options default to
`false` / the empty list, as in the YAML. -/

inductive Direction where
  | input : Direction
  | output : Direction
deriving DecidableEq, Repr

structure ChannelDecl where
  name : String
  driver : String
  args : String
  as_array : Bool
  in_temp : Bool
  field_names : List String
deriving DecidableEq, Repr

structure ModelDecl where
  name : String
  driver : String
  args : String
  inputs : List ChannelDecl
  outputs : List ChannelDecl
deriving DecidableEq, Repr

structure Manifest where
  models : List ModelDecl
deriving DecidableEq, Repr

/-- A driver tag naming a tabular encoder. -/
def isTabularDriver (d : String) : Bool :=
  d == "AsciiTableInputDriver" || d == "AsciiTableOutputDriver"

/-! ### The manifests of `src/yggdrasil/examples/ascii_io` -/

def inputC_file : ChannelDecl :=
  ⟨"inputC_file", "AsciiFileInputDriver", "./Input/input_file.txt", false, false, []⟩

def inputC_table : ChannelDecl :=
  ⟨"inputC_table", "AsciiTableInputDriver", "./Input/input_table.txt", false, false, []⟩

def inputC_array : ChannelDecl :=
  ⟨"inputC_array", "AsciiTableInputDriver", "./Input/input_array.txt", true, false, []⟩

def outputC_file : ChannelDecl :=
  ⟨"outputC_file", "AsciiFileOutputDriver", "output_file.txt", false, true, []⟩

def outputC_table : ChannelDecl :=
  ⟨"outputC_table", "AsciiTableOutputDriver", "output_table.txt", false, true,
    ["name", "number", "value", "complex"]⟩

def outputC_array : ChannelDecl :=
  ⟨"outputC_array", "AsciiTableOutputDriver", "output_array.txt", true, true,
    ["name", "number", "value", "complex"]⟩

def ascii_io_GCC : ModelDecl :=
  ⟨"ascii_io_GCC", "GCCModelDriver", "src/ascii_io.c",
    [inputC_file, inputC_table, inputC_array],
    [outputC_file, outputC_table, outputC_array]⟩

def inputM_file : ChannelDecl :=
  ⟨"inputM_file", "AsciiFileInputDriver", "./Input/input_file.txt", false, false, []⟩

def inputM_table : ChannelDecl :=
  ⟨"inputM_table", "AsciiTableInputDriver", "./Input/input_table.txt", false, false, []⟩

def inputM_array : ChannelDecl :=
  ⟨"inputM_array", "AsciiTableInputDriver", "./Input/input_array.txt", true, false, []⟩

def outputM_file : ChannelDecl :=
  ⟨"outputM_file", "AsciiFileOutputDriver", "output_file.txt", false, true, []⟩

def outputM_table : ChannelDecl :=
  ⟨"outputM_table", "AsciiTableOutputDriver", "output_table.txt", false, true,
    ["name", "number", "value", "complex"]⟩

def outputM_array : ChannelDecl :=
  ⟨"outputM_array", "AsciiTableOutputDriver", "output_array.txt", true, true,
    ["name", "number", "value", "complex"]⟩

def ascii_io_Matlab : ModelDecl :=
  ⟨"ascii_io_Matlab", "MatlabModelDriver", "src/ascii_io.m",
    [inputM_file, inputM_table, inputM_array],
    [outputM_file, outputM_table, outputM_array]⟩

def asciiIoCManifest : Manifest := ⟨[ascii_io_GCC]⟩

def asciiIoMatlabManifest : Manifest := ⟨[ascii_io_Matlab]⟩

/-! ## Binding resolution

Modelled from the spec (§4.2, §5): for each declared channel, a transport
argument shared with a counterpart channel binds them as a
producer/consumer pair over one queue; otherwise the channel binds to its
literal file-system path; a channel with no counterpart and no valid file
path is a `BindingError`; two or more producers for one transport name
are rejected as ambiguous ownership, as is a file transport with more
than one consumer. -/

inductive BindingError where
  | unresolvable : String → BindingError
  | multipleProducers : String → BindingError
  | multipleFileConsumers : String → BindingError
deriving DecidableEq, Repr

inductive Binding where
  | queue : String → ChannelDecl → List ChannelDecl → Binding
  | file : String → Direction → ChannelDecl → Binding
deriving DecidableEq, Repr

/-- Modelled from the spec: validity of a literal file path.  The spec
does not constrain paths beyond existence of a usable literal path; the
model takes any non-empty string as valid. -/
def validPath (p : String) : Bool := !(p == "")

def manifestChannels (m : Manifest) : List (Direction × ChannelDecl) :=
  m.models.flatMap (fun md =>
    md.inputs.map (fun c => (Direction.input, c)) ++
    md.outputs.map (fun c => (Direction.output, c)))

def channelsWithTransport (m : Manifest) (t : String) : List (Direction × ChannelDecl) :=
  (manifestChannels m).filter (fun dc => dc.2.args == t)

def producersOf (m : Manifest) (t : String) : List ChannelDecl :=
  ((channelsWithTransport m t).filter (fun dc => decide (dc.1 = Direction.output))).map Prod.snd

def consumersOf (m : Manifest) (t : String) : List ChannelDecl :=
  ((channelsWithTransport m t).filter (fun dc => decide (dc.1 = Direction.input))).map Prod.snd

/-- Resolve one transport identifier given its declared producers and
consumers. -/
def resolveTransport (t : String) :
    List ChannelDecl → List ChannelDecl → Except BindingError (List Binding)
  | [], [] => .ok []
  | [p], c :: cs => .ok [.queue t p (c :: cs)]
  | [p], [] =>
    if validPath t then .ok [.file t Direction.output p]
    else .error (.unresolvable t)
  | [], [c] =>
    if validPath t then .ok [.file t Direction.input c]
    else .error (.unresolvable t)
  | [], _ :: _ :: _ => .error (.multipleFileConsumers t)
  | _ :: _ :: _, _ => .error (.multipleProducers t)

def transportKeys (m : Manifest) : List String :=
  ((manifestChannels m).map (fun dc => dc.2.args)).dedup

def bindAll (m : Manifest) : List String → Except BindingError (List Binding)
  | [] => .ok []
  | t :: ts =>
    match resolveTransport t (producersOf m t) (consumersOf m t), bindAll m ts with
    | .ok bs, .ok rest => .ok (bs ++ rest)
    | .error e, _ => .error e
    | .ok _, .error e => .error e

/-- Modelled from the spec (§4.2): resolve every transport identifier of
the manifest, failing fast on the first `BindingError`. -/
def bindManifest (m : Manifest) : Except BindingError (List Binding) :=
  bindAll m (transportKeys m)

/-! ## Pipeline orchestration

Modelled from the spec (§4.4, §7): the state machine over a Pipeline Run
is `Loaded → Bound → Running → Draining → Terminated`; a `BindingError`
transitions directly to `Terminated(failure)` without spawning anything;
otherwise all model processes are spawned and the aggregate result is
computed from their outcomes. -/

inductive PipelineResult where
  | success : PipelineResult
  | partial_failure : PipelineResult
  | failure : PipelineResult
deriving DecidableEq, Repr

inductive ProcOutcome where
  | exited : Int → ProcOutcome
  | forced : ProcOutcome
deriving DecidableEq, Repr

def ProcOutcome.isForced : ProcOutcome → Bool
  | .forced => true
  | .exited _ => false

/-- Modelled from the spec (§4.4 *Terminated*): `success` iff every model
exited zero; `partial_failure` if some exited non-zero but all are
accounted for; `failure` if a process had to be force-terminated. -/
def aggregateResult (outcomes : List ProcOutcome) : PipelineResult :=
  if outcomes.any ProcOutcome.isForced then .failure
  else if outcomes.all (fun o => decide (o = .exited 0)) then .success
  else .partial_failure

structure RunReport where
  result : PipelineResult
  processesStarted : Nat
deriving DecidableEq, Repr

/-- Modelled from the spec (§4.4): run one pipeline; `outcomes` abstracts
the exit outcomes the orchestrator collects from the spawned processes. -/
def runPipeline (m : Manifest) (outcomes : List ProcOutcome) : RunReport :=
  match bindManifest m with
  | .error _ => ⟨.failure, 0⟩
  | .ok _ => ⟨aggregateResult outcomes, m.models.length⟩

/-! ## Channel endpoint send/receive

Modelled from the spec (§4.2, §7): a queue-backed output endpoint; a
counterpart process that has exited makes `EndpointClosed` the terminal
condition of any subsequent `send`. -/

inductive ChannelError where
  | formatError : Nat → ChannelError
  | endpointClosed : ChannelError
  | timeoutExceeded : ChannelError
deriving DecidableEq, Repr

structure EndpointState where
  counterpartAlive : Bool
  queued : List (List Char)
deriving DecidableEq, Repr

/-- Modelled from the spec (§4.2 `send`, §7 `EndpointClosed`): a send on
an output endpoint whose counterpart has exited returns `EndpointClosed`;
otherwise the message is enqueued. -/
def endpointSend (st : EndpointState) (msg : List Char) :
    Except ChannelError EndpointState :=
  if st.counterpartAlive then .ok ⟨true, st.queued ++ [msg]⟩
  else .error .endpointClosed

/-- Modelled from the spec (§4.3): the counterpart process exiting closes
its end of the channel. -/
def counterpartExit (st : EndpointState) : EndpointState :=
  ⟨false, st.queued⟩

/-! ## Per-language client library and the helloPar model

`psiRecv`/`psiSend` are modelled from the spec (§6): `PsiInterface.hpp`
itself is not under `src/`; only its caller `helloPar.cpp` is.  A receive
fills a byte buffer of the given capacity and returns the number of bytes
received, or a negative sentinel on error (no data, or a message larger
than the buffer); a send returns zero on success and non-zero on error. -/

def psiRecv (avail : Option (List Nat)) (cap : Nat) : Int × List Nat :=
  match avail with
  | some d => if d.length ≤ cap then ((d.length : Int), d) else (-1, [])
  | none => (-1, [])

def psiSend (ok : Bool) : Int := if ok then 0 else -1

/-- The channel environment the helloPar process runs against: what each
of its two receive channels has available, and whether each of its two
send channels accepts. -/
structure PsiEnv where
  inFileData : Option (List Nat)
  queueSendOk : Bool
  inQueueData : Option (List Nat)
  fileSendOk : Bool
deriving DecidableEq, Repr

inductive HelloOp where
  | fileRecv : HelloOp
  | queueSend : HelloOp
  | queueRecv : HelloOp
  | fileSend : HelloOp
deriving DecidableEq, Repr

inductive SendTarget where
  | toQueue : SendTarget
  | toFile : SendTarget
deriving DecidableEq, Repr

structure HelloParLog where
  exitCode : Int
  ops : List HelloOp
  sends : List (SendTarget × List Nat)
deriving DecidableEq, Repr

/-- Embedding of `main` from
`src/cis_interface/examples/helloPar/src/helloPar.cpp`: receive from the
input file into `buf`, send `buf` (first `bufsiz` bytes) to the output
queue, receive from the input queue into `buf`, send `buf` to the output
file; return `-1` at the first failing operation (negative receive return
or non-zero send return), else `0`.  The log records the operations
attempted and the payload passed to each attempted send. -/
def helloParMain (env : PsiEnv) : HelloParLog :=
  let bufsiz0 : Nat := 512
  let r1 := psiRecv env.inFileData bufsiz0
  if r1.1 < 0 then ⟨-1, [.fileRecv], []⟩
  else
    let buf := r1.2
    let bufsiz := r1.1.toNat
    let payload1 := buf.take bufsiz
    let r2 := psiSend env.queueSendOk
    if r2 ≠ 0 then ⟨-1, [.fileRecv, .queueSend], [(.toQueue, payload1)]⟩
    else
      let r3 := psiRecv env.inQueueData bufsiz0
      if r3.1 < 0 then
        ⟨-1, [.fileRecv, .queueSend, .queueRecv], [(.toQueue, payload1)]⟩
      else
        let buf2 := r3.2
        let bufsiz2 := r3.1.toNat
        let payload2 := buf2.take bufsiz2
        let r4 := psiSend env.fileSendOk
        if r4 ≠ 0 then
          ⟨-1, [.fileRecv, .queueSend, .queueRecv, .fileSend],
            [(.toQueue, payload1), (.toFile, payload2)]⟩
        else
          ⟨0, [.fileRecv, .queueSend, .queueRecv, .fileSend],
            [(.toQueue, payload1), (.toFile, payload2)]⟩

/-! ## Table channel emission semantics

Modelled from the spec (§4.1, §8): a table output channel emits one
message per row; with `as_array: true` the driver instead buffers all
rows and emits the whole table as one array message when the channel is
closed. -/

inductive ChannelEvent where
  | sendRow : List FieldValue → ChannelEvent
  | close : ChannelEvent
deriving DecidableEq, Repr

/-- One driver step: per-row mode emits each row at once; array mode
buffers rows and emits the block on close. -/
def tableStep (asArr : Bool) (buf : List (List FieldValue)) :
    ChannelEvent → List (List FieldValue) × List (List Char)
  | .sendRow r => if asArr then (buf ++ [r], []) else (buf, [encodeRecord r])
  | .close => if asArr then (buf, [encodeArray buf]) else (buf, [])

def channelEmitsAux (asArr : Bool) (buf : List (List FieldValue)) :
    List ChannelEvent → List (List Char)
  | [] => []
  | e :: es =>
    let st := tableStep asArr buf e
    st.2 ++ channelEmitsAux asArr st.1 es

/-- The messages a table channel with the given declaration emits for an
event sequence, starting from an empty buffer. -/
def channelEmits (ch : ChannelDecl) (events : List ChannelEvent) : List (List Char) :=
  channelEmitsAux ch.as_array [] events

theorem channelEmitsAux_array_sendRows (rows : List (List FieldValue)) :
    ∀ buf, channelEmitsAux true buf
        (rows.map ChannelEvent.sendRow ++ [ChannelEvent.close]) =
      [encodeArray (buf ++ rows)] := by
  induction rows with
  | nil => intro buf; simp [channelEmitsAux, tableStep]
  | cons r rs ih =>
    intro buf
    simp only [List.map_cons, List.cons_append, channelEmitsAux, tableStep,
      List.append_eq, eq_self_iff_true, if_true]
    rw [ih (buf ++ [r])]
    simp

theorem channelEmits_array_sendRows (ch : ChannelDecl) (harr : ch.as_array = true)
    (rows : List (List FieldValue)) :
    channelEmits ch (rows.map ChannelEvent.sendRow ++ [ChannelEvent.close]) =
      [encodeArray rows] := by
  rw [channelEmits, harr, channelEmitsAux_array_sendRows rows []]
  simp

/-! ## Binding lemmas -/

theorem bindAll_ok_resolve {m : Manifest} {ks : List String} {bs : List Binding}
    (h : bindAll m ks = .ok bs) :
    ∀ t ∈ ks, ∃ bs2, resolveTransport t (producersOf m t) (consumersOf m t) = .ok bs2 := by
  induction ks generalizing bs with
  | nil => intro t ht; simp at ht
  | cons k ks ih =>
    intro t ht
    simp only [bindAll] at h
    cases hres : resolveTransport k (producersOf m k) (consumersOf m k) with
    | error e => rw [hres] at h; simp at h
    | ok bs1 =>
      rw [hres] at h
      cases hrest : bindAll m ks with
      | error e => rw [hrest] at h; simp at h
      | ok bs3 =>
        rw [hrest] at h
        rcases List.mem_cons.mp ht with rfl | htks
        · exact ⟨bs1, hres⟩
        · exact ih hrest t htks

theorem bindAll_ok_mem {m : Manifest} {ks : List String} {bs : List Binding}
    (h : bindAll m ks = .ok bs) :
    ∀ b ∈ bs, ∃ t ∈ ks, ∃ bs2,
      resolveTransport t (producersOf m t) (consumersOf m t) = .ok bs2 ∧ b ∈ bs2 := by
  induction ks generalizing bs with
  | nil =>
    intro b hb
    simp only [bindAll] at h
    cases h
    simp at hb
  | cons k ks ih =>
    intro b hb
    simp only [bindAll] at h
    cases hres : resolveTransport k (producersOf m k) (consumersOf m k) with
    | error e => rw [hres] at h; simp at h
    | ok bs1 =>
      rw [hres] at h
      cases hrest : bindAll m ks with
      | error e => rw [hrest] at h; simp at h
      | ok bs3 =>
        rw [hrest] at h
        cases h
        rcases List.mem_append.mp hb with hb1 | hb3
        · exact ⟨k, List.mem_cons_self _ _, bs1, hres, hb1⟩
        · obtain ⟨t, htks, bs2, hres2, hmem⟩ := ih hrest b hb3
          exact ⟨t, List.mem_cons_of_mem _ htks, bs2, hres2, hmem⟩

theorem producersOf_args {m : Manifest} {t : String} {c : ChannelDecl}
    (h : c ∈ producersOf m t) : c.args = t ∧ (Direction.output, c) ∈ manifestChannels m := by
  simp only [producersOf, channelsWithTransport, List.mem_map, List.mem_filter] at h
  obtain ⟨⟨d, c2⟩, ⟨⟨hmem, hargs⟩, hdir⟩, rfl⟩ := h
  simp only [decide_eq_true_eq] at hdir
  subst hdir
  exact ⟨by simpa using hargs, hmem⟩

theorem mem_transportKeys {m : Manifest} {dc : Direction × ChannelDecl}
    (h : dc ∈ manifestChannels m) : dc.2.args ∈ transportKeys m := by
  simp only [transportKeys, List.mem_dedup, List.mem_map]
  exact ⟨dc, h, rfl⟩

/-- A transport with two or more declared producers cannot bind. -/
theorem resolveTransport_two_producers (t : String) (p q : ChannelDecl)
    (ps cs : List ChannelDecl) :
    resolveTransport t (p :: q :: ps) cs = .error (.multipleProducers t) := rfl

/-! ## Claim theorems -/

/-- C1: For every table-encoded record whose fields are of a supported
scalar type (numeric, string, or complex), decoding the encoding of the
record against the record's own field types yields the record itself —
`decode(encode(record)) = record` — including edge values such as an
empty string field, zero, and negative numbers.  (A table record has at
least one field, since `field_names` is a non-empty ordered sequence.) -/
theorem claim1_table_roundtrip (r : List FieldValue) (hne : r ≠ []) :
    decodeRecord (r.map FieldValue.ftype) (encodeRecord r) = some r :=
  decodeRecord_encodeRecord r hne

/-- A sample record exercising the claim's edge values: an empty string
field, zero, a negative number, a string containing the delimiter, and a
complex number with a negative imaginary part. -/
def c1SampleRecord : List FieldValue :=
  [.fstr [], .fnum 0, .fnum (-7), .fstr ['a', ',', 'b'], .fcplx 2 (-3)]

theorem claim1_table_roundtrip_witness :
    c1SampleRecord ≠ [] ∧
    decodeRecord (c1SampleRecord.map FieldValue.ftype)
      (encodeRecord c1SampleRecord) = some c1SampleRecord :=
  ⟨by decide, claim1_table_roundtrip c1SampleRecord (by decide)⟩

/-- C5: For a pipeline with one producer and one consumer of a channel,
if the consumer process exits before the producer sends, the producer's
next send returns `EndpointClosed` as a terminal condition (the modelled
send is a total function, so it cannot hang). -/
theorem claim5_send_endpoint_closed (st : EndpointState) (msg : List Char) :
    endpointSend (counterpartExit st) msg = .error ChannelError.endpointClosed := by
  simp [endpointSend, counterpartExit]

theorem claim5_send_endpoint_closed_witness :
    endpointSend (counterpartExit ⟨true, []⟩) ['h', 'i'] =
      .error ChannelError.endpointClosed :=
  claim5_send_endpoint_closed ⟨true, []⟩ ['h', 'i']

/-- C6: A blocking receive into a byte buffer returns the number of bytes
received on success and a negative sentinel on error (no data, or a
message exceeding the buffer capacity); a send returns zero on success
and non-zero on error. -/
theorem claim6_client_library_returns (cap : Nat) (avail : Option (List Nat)) (ok : Bool) :
    (∀ d, avail = some d → d.length ≤ cap →
      (psiRecv avail cap).1 = (d.length : Int) ∧ 0 ≤ (psiRecv avail cap).1 ∧
      (psiRecv avail cap).2 = d) ∧
    (avail = none → (psiRecv avail cap).1 < 0) ∧
    (∀ d, avail = some d → cap < d.length → (psiRecv avail cap).1 < 0) ∧
    (psiSend ok = 0 ↔ ok = true) := by
  refine ⟨?_, ?_, ?_, ?_⟩
  · intro d hd hlen
    subst hd
    simp [psiRecv, hlen]
  · intro hd
    subst hd
    simp [psiRecv]
  · intro d hd hlen
    subst hd
    simp [psiRecv, Nat.not_le.mpr hlen]
  · cases ok with
    | true => simp [psiSend]
    | false => simp [psiSend]

theorem claim6_client_library_returns_witness :
    (psiRecv (some [104, 105]) 512).1 = (2 : Int) ∧
    (psiRecv none 512).1 < 0 ∧
    psiSend true = 0 := by
  have h := claim6_client_library_returns 512 (some [104, 105]) true
  have h2 := claim6_client_library_returns 512 none true
  exact ⟨(h.1 [104, 105] rfl (by decide)).1, h2.2.1 rfl, h.2.2.2.mpr rfl⟩

/-- The invariant claimed by C7, stated over a manifest: `field_names` is
present and non-empty iff the channel's driver is a tabular encoder. -/
def fieldNamesIffTabular (m : Manifest) : Prop :=
  ∀ dc ∈ manifestChannels m,
    (dc.2.field_names ≠ [] ↔ isTabularDriver dc.2.driver = true)

/-- C7 counterexample: in the repository's own manifest
`ascii_io_c.yml`, the channel `inputC_table` uses `AsciiTableInputDriver`
(a tabular encoder) but declares no `field_names`, so the "present and
non-empty iff tabular" invariant fails on that manifest. -/
theorem claim7_counterexample : ¬ fieldNamesIffTabular asciiIoCManifest := by
  intro h
  have hmem : (Direction.input, inputC_table) ∈ manifestChannels asciiIoCManifest := by
    decide
  have := (h (Direction.input, inputC_table) hmem).mpr (by decide)
  exact this rfl

/-- C7 amended: in the repository's example manifests, a channel carries
non-empty `field_names` only if its driver is a tabular encoder, and
every tabular *output* channel carries non-empty `field_names`; tabular
input channels may omit them (the consumer falls back to the header
line). -/
theorem claim7_amended :
    ∀ m ∈ [asciiIoCManifest, asciiIoMatlabManifest],
      ∀ dc ∈ manifestChannels m,
        (dc.2.field_names ≠ [] → isTabularDriver dc.2.driver = true) ∧
        (isTabularDriver dc.2.driver = true → dc.1 = Direction.output →
          dc.2.field_names ≠ []) := by decide

/-- C2: For a manifest containing a channel whose transport argument
matches no counterpart channel (it is the only channel with that
transport argument) and is not a valid file path, the Bound phase fails
with a `BindingError` and the run terminates with `failure` before any
model process is spawned: zero processes started. -/
theorem claim2_binding_error_fail_fast (m : Manifest) (d : Direction)
    (c : ChannelDecl) (outcomes : List ProcOutcome)
    (honly : channelsWithTransport m c.args = [(d, c)])
    (hbad : validPath c.args = false) :
    (runPipeline m outcomes).result = PipelineResult.failure ∧
    (runPipeline m outcomes).processesStarted = 0 := by
  have hmem : (d, c) ∈ manifestChannels m := by
    have : (d, c) ∈ channelsWithTransport m c.args := by
      rw [honly]; exact List.mem_singleton.mpr rfl
    exact List.mem_of_mem_filter this
  have hkey : c.args ∈ transportKeys m := mem_transportKeys hmem
  have hres : ∀ bs2, resolveTransport c.args (producersOf m c.args)
      (consumersOf m c.args) ≠ .ok bs2 := by
    intro bs2
    cases d with
    | output =>
      have hp : producersOf m c.args = [c] := by
        simp [producersOf, honly]
      have hc2 : consumersOf m c.args = [] := by
        simp [consumersOf, honly]
      rw [hp, hc2]
      simp [resolveTransport, hbad]
    | input =>
      have hp : producersOf m c.args = [] := by
        simp [producersOf, honly]
      have hc2 : consumersOf m c.args = [c] := by
        simp [consumersOf, honly]
      rw [hp, hc2]
      simp [resolveTransport, hbad]
  have hbind : ∀ bs, bindManifest m ≠ .ok bs := by
    intro bs hok
    obtain ⟨bs2, hres2⟩ := bindAll_ok_resolve hok c.args hkey
    exact hres bs2 hres2
  cases hb : bindManifest m with
  | ok bs => exact absurd hb (hbind bs)
  | error e => simp [runPipeline, hb]

/-- A manifest whose single channel has an empty transport argument: no
counterpart, no valid file path. -/
def badChannel : ChannelDecl :=
  ⟨"lonely", "AsciiFileInputDriver", "", false, false, []⟩

def badManifest : Manifest :=
  ⟨[⟨"broken_model", "GCCModelDriver", "src/broken.c", [badChannel], []⟩]⟩

theorem claim2_binding_error_fail_fast_witness :
    (runPipeline badManifest []).result = PipelineResult.failure ∧
    (runPipeline badManifest []).processesStarted = 0 :=
  claim2_binding_error_fail_fast badManifest Direction.input badChannel []
    (by decide) (by decide)

/-- C8: every manifest accepted at the Bound phase has at most one
producer for each transport identifier, and every resolved binding is
either a queue binding with exactly one producer and one or more
consumers, or a file binding on a valid path with a single endpoint. -/
theorem claim8_single_producer (m : Manifest) (bs : List Binding)
    (hok : bindManifest m = .ok bs) :
    (∀ t, (producersOf m t).length ≤ 1) ∧
    (∀ b ∈ bs, (∃ t p c cons, b = .queue t p (c :: cons)) ∨
      (∃ t d e, b = .file t d e ∧ validPath t = true)) := by
  constructor
  · intro t
    cases hp : producersOf m t with
    | nil => simp
    | cons p ps =>
      cases ps with
      | nil => simp
      | cons q qs =>
        exfalso
        have hpmem : p ∈ producersOf m t := by rw [hp]; exact List.mem_cons_self _ _
        obtain ⟨hargs, hmem⟩ := producersOf_args hpmem
        have hkey : t ∈ transportKeys m := by
          have := mem_transportKeys hmem
          rwa [hargs] at this
        obtain ⟨bs2, hres⟩ := bindAll_ok_resolve hok t hkey
        rw [hp, resolveTransport_two_producers] at hres
        exact Except.noConfusion hres
  · intro b hb
    obtain ⟨t, -, bs2, hres, hmem⟩ := bindAll_ok_mem hok b hb
    cases hprod : producersOf m t with
    | nil =>
      cases hcons : consumersOf m t with
      | nil =>
        rw [hprod, hcons] at hres
        simp only [resolveTransport] at hres
        cases hres
        simp at hmem
      | cons c cs =>
        cases cs with
        | nil =>
          rw [hprod, hcons] at hres
          simp only [resolveTransport] at hres
          by_cases hv : validPath t = true
          · rw [if_pos hv] at hres
            cases hres
            rcases List.mem_singleton.mp hmem with rfl
            exact Or.inr ⟨t, Direction.input, c, rfl, hv⟩
          · rw [if_neg hv] at hres
            exact Except.noConfusion hres
        | cons c2 cs2 =>
          rw [hprod, hcons] at hres
          simp only [resolveTransport] at hres
          exact Except.noConfusion hres
    | cons p ps =>
      cases ps with
      | nil =>
        cases hcons : consumersOf m t with
        | nil =>
          rw [hprod, hcons] at hres
          simp only [resolveTransport] at hres
          by_cases hv : validPath t = true
          · rw [if_pos hv] at hres
            cases hres
            rcases List.mem_singleton.mp hmem with rfl
            exact Or.inr ⟨t, Direction.output, p, rfl, hv⟩
          · rw [if_neg hv] at hres
            exact Except.noConfusion hres
        | cons c cs =>
          rw [hprod, hcons] at hres
          simp only [resolveTransport] at hres
          cases hres
          rcases List.mem_singleton.mp hmem with rfl
          exact Or.inl ⟨t, p, c, cs, rfl⟩
      | cons q qs =>
        rw [hprod, resolveTransport_two_producers] at hres
        exact Except.noConfusion hres

/-- Two models joined by the queue transport `sharedq`: one producer, one
consumer.  Modelled after the helloPar pipeline's queue channels. -/
def demoProducer : ChannelDecl :=
  ⟨"A_out", "OutputDriver", "sharedq", false, false, []⟩

def demoConsumer : ChannelDecl :=
  ⟨"B_in", "InputDriver", "sharedq", false, false, []⟩

def demoQueueManifest : Manifest :=
  ⟨[⟨"modelA", "GCCModelDriver", "src/a.c", [], [demoProducer]⟩,
    ⟨"modelB", "GCCModelDriver", "src/b.c", [demoConsumer], []⟩]⟩

theorem claim8_single_producer_witness :
    (producersOf demoQueueManifest "sharedq").length ≤ 1 :=
  (claim8_single_producer demoQueueManifest
    [Binding.queue "sharedq" demoProducer [demoConsumer]] (by rfl)).1 "sharedq"

/-- C3: For every completed pipeline run, the aggregate result is
`success` iff binding succeeded and every model process exited zero;
`partial_failure` iff binding succeeded, some process exited non-zero,
and every process is accounted for (none force-terminated); `failure` iff
binding never completed or some process was force-terminated after the
grace period. -/
theorem claim3_aggregate_result (m : Manifest) (outcomes : List ProcOutcome) :
    ((runPipeline m outcomes).result = PipelineResult.success ↔
      (∃ bs, bindManifest m = .ok bs) ∧ ∀ o ∈ outcomes, o = ProcOutcome.exited 0) ∧
    ((runPipeline m outcomes).result = PipelineResult.partial_failure ↔
      (∃ bs, bindManifest m = .ok bs) ∧ (∃ o ∈ outcomes, o ≠ ProcOutcome.exited 0) ∧
        ProcOutcome.forced ∉ outcomes) ∧
    ((runPipeline m outcomes).result = PipelineResult.failure ↔
      (∃ e, bindManifest m = .error e) ∨ ProcOutcome.forced ∈ outcomes) := by
  have hforced : outcomes.any ProcOutcome.isForced = true ↔
      ProcOutcome.forced ∈ outcomes := by
    rw [List.any_eq_true]
    constructor
    · rintro ⟨o, ho, hof⟩
      cases o with
      | exited c => simp [ProcOutcome.isForced] at hof
      | forced => exact ho
    · intro h
      exact ⟨ProcOutcome.forced, h, rfl⟩
  have hallz : outcomes.all (fun o => decide (o = ProcOutcome.exited 0)) = true ↔
      ∀ o ∈ outcomes, o = ProcOutcome.exited 0 := by
    rw [List.all_eq_true]
    simp
  cases hb : bindManifest m with
  | error e =>
    refine ⟨?_, ?_, ?_⟩
    · simp [runPipeline, hb]
    · simp [runPipeline, hb]
    · simp only [runPipeline, hb]
      exact iff_of_true trivial (Or.inl ⟨e, rfl⟩)
  | ok bs =>
    by_cases hf : outcomes.any ProcOutcome.isForced = true
    · have hfm := hforced.mp hf
      refine ⟨?_, ?_, ?_⟩
      · simp only [runPipeline, hb, aggregateResult, if_pos hf]
        constructor
        · intro h; exact absurd h (by decide)
        · rintro ⟨-, hz⟩
          exact absurd (hz ProcOutcome.forced hfm) (by decide)
      · simp only [runPipeline, hb, aggregateResult, if_pos hf]
        constructor
        · intro h; exact absurd h (by decide)
        · rintro ⟨-, -, hnf⟩
          exact absurd hfm hnf
      · simp only [runPipeline, hb, aggregateResult, if_pos hf]
        exact iff_of_true trivial (Or.inr hfm)
    · by_cases hz : outcomes.all (fun o => decide (o = ProcOutcome.exited 0)) = true
      · refine ⟨?_, ?_, ?_⟩
        · simp only [runPipeline, hb, aggregateResult, if_neg hf, if_pos hz]
          exact iff_of_true trivial ⟨⟨bs, rfl⟩, hallz.mp hz⟩
        · simp only [runPipeline, hb, aggregateResult, if_neg hf, if_pos hz]
          constructor
          · intro h; exact absurd h (by decide)
          · rintro ⟨-, ⟨o, ho, hne⟩, -⟩
            exact (hne (hallz.mp hz o ho)).elim
        · simp only [runPipeline, hb, aggregateResult, if_neg hf, if_pos hz]
          constructor
          · intro h; exact absurd h (by decide)
          · rintro (⟨e, he⟩ | hfm)
            · exact Except.noConfusion he
            · exact absurd (hforced.mpr hfm) hf
      · refine ⟨?_, ?_, ?_⟩
        · simp only [runPipeline, hb, aggregateResult, if_neg hf, if_neg hz]
          constructor
          · intro h; exact absurd h (by decide)
          · rintro ⟨-, hall0⟩
            exact (hz (hallz.mpr hall0)).elim
        · simp only [runPipeline, hb, aggregateResult, if_neg hf, if_neg hz]
          refine iff_of_true trivial ⟨⟨bs, rfl⟩, ?_, ?_⟩
          · have hnall : ¬ ∀ o ∈ outcomes, o = ProcOutcome.exited 0 :=
              fun h => hz (hallz.mpr h)
            push_neg at hnall
            exact hnall
          · intro hmem
            exact hf (hforced.mpr hmem)
        · simp only [runPipeline, hb, aggregateResult, if_neg hf, if_neg hz]
          constructor
          · intro h; exact absurd h (by decide)
          · rintro (⟨e, he⟩ | hfm)
            · exact Except.noConfusion he
            · exact absurd (hforced.mpr hfm) hf

theorem claim3_aggregate_result_witness :
    (runPipeline demoQueueManifest
      [ProcOutcome.exited 0, ProcOutcome.exited 0]).result =
      PipelineResult.success := by
  have h := claim3_aggregate_result demoQueueManifest
    [ProcOutcome.exited 0, ProcOutcome.exited 0]
  exact h.1.mpr ⟨⟨[Binding.queue "sharedq" demoProducer [demoConsumer]], by rfl⟩,
    by decide⟩

/-- C4: For a channel declared `as_array: true`, sending N rows through
it followed by a close yields exactly one emitted message — not N
separate row messages — and decoding that single message on the consumer
side yields the whole array: the N rows, each of width `|field_names|`. -/
theorem claim4_as_array_one_message (ch : ChannelDecl) (types : List FieldType)
    (rows : List (List FieldValue))
    (harr : ch.as_array = true)
    (hfne : ch.field_names ≠ [])
    (hlen : types.length = ch.field_names.length)
    (htypes : ∀ r ∈ rows, r.map FieldValue.ftype = types) :
    channelEmits ch (rows.map ChannelEvent.sendRow ++ [ChannelEvent.close]) =
      [encodeArray rows] ∧
    decodeArray types (encodeArray rows) = some rows ∧
    (∀ r ∈ rows, r.length = ch.field_names.length) := by
  have htne : types ≠ [] := by
    intro h
    rw [h] at hlen
    exact hfne (List.eq_nil_of_length_eq_zero hlen.symm)
  have hrne : ∀ r ∈ rows, r ≠ [] := by
    intro r hr h
    subst h
    exact htne (htypes [] hr).symm
  refine ⟨channelEmits_array_sendRows ch harr rows,
    decodeArray_encodeArray rows types htypes hrne, ?_⟩
  intro r hr
  have hmap := htypes r hr
  have hl : r.length = types.length := by
    rw [← hmap, List.length_map]
  rw [hl, hlen]

/-- Two sample rows matching `outputC_array`'s four declared columns
`name,number,value,complex`. -/
def c4Types : List FieldType := [.str, .num, .num, .cplx]

def c4Rows : List (List FieldValue) :=
  [[.fstr ['o', 'n', 'e'], .fnum 1, .fnum (-2), .fcplx 0 3],
   [.fstr [], .fnum 0, .fnum 5, .fcplx (-1) 2]]

theorem claim4_as_array_one_message_witness :
    channelEmits outputC_array
      (c4Rows.map ChannelEvent.sendRow ++ [ChannelEvent.close]) =
      [encodeArray c4Rows] ∧
    decodeArray c4Types (encodeArray c4Rows) = some c4Rows :=
  ⟨(claim4_as_array_one_message outputC_array c4Types c4Rows
      (by decide) (by decide) (by decide) (by decide)).1,
   (claim4_as_array_one_message outputC_array c4Types c4Rows
      (by decide) (by decide) (by decide) (by decide)).2.1⟩

/-- C9: the helloPar C++ model exits with status 0 iff all four of its
channel operations (file receive, queue send, queue receive, file send)
succeed, in that order; at the first operation that reports an error
(negative receive return or non-zero send return) it returns -1 and
attempts no further channel operations. -/
theorem claim9_hellopar_control_flow (env : PsiEnv) :
    ((helloParMain env).exitCode = 0 ↔
      0 ≤ (psiRecv env.inFileData 512).1 ∧ env.queueSendOk = true ∧
      0 ≤ (psiRecv env.inQueueData 512).1 ∧ env.fileSendOk = true) ∧
    ((psiRecv env.inFileData 512).1 < 0 →
      (helloParMain env).exitCode = -1 ∧
      (helloParMain env).ops = [HelloOp.fileRecv]) ∧
    (0 ≤ (psiRecv env.inFileData 512).1 → env.queueSendOk = false →
      (helloParMain env).exitCode = -1 ∧
      (helloParMain env).ops = [HelloOp.fileRecv, HelloOp.queueSend]) ∧
    (0 ≤ (psiRecv env.inFileData 512).1 → env.queueSendOk = true →
      (psiRecv env.inQueueData 512).1 < 0 →
      (helloParMain env).exitCode = -1 ∧
      (helloParMain env).ops =
        [HelloOp.fileRecv, HelloOp.queueSend, HelloOp.queueRecv]) ∧
    (0 ≤ (psiRecv env.inFileData 512).1 → env.queueSendOk = true →
      0 ≤ (psiRecv env.inQueueData 512).1 → env.fileSendOk = false →
      (helloParMain env).exitCode = -1 ∧
      (helloParMain env).ops =
        [HelloOp.fileRecv, HelloOp.queueSend, HelloOp.queueRecv, HelloOp.fileSend]) ∧
    ((helloParMain env).exitCode = 0 →
      (helloParMain env).ops =
        [HelloOp.fileRecv, HelloOp.queueSend, HelloOp.queueRecv, HelloOp.fileSend]) := by
  by_cases h1 : (psiRecv env.inFileData 512).1 < 0
  · have hexit : (helloParMain env).exitCode = -1 := by
      simp [helloParMain, h1]
    have hops : (helloParMain env).ops = [HelloOp.fileRecv] := by
      simp [helloParMain, h1]
    refine ⟨?_, fun _ => ⟨hexit, hops⟩, ?_, ?_, ?_, ?_⟩
    · rw [hexit]
      constructor
      · intro h; exact absurd h (by decide)
      · rintro ⟨ha, -⟩; exact absurd h1 (not_lt.mpr ha)
    · intro ha _; exact absurd h1 (not_lt.mpr ha)
    · intro ha _ _; exact absurd h1 (not_lt.mpr ha)
    · intro ha _ _ _; exact absurd h1 (not_lt.mpr ha)
    · intro h; rw [hexit] at h; exact absurd h (by decide)
  · cases hB : env.queueSendOk with
    | false =>
      have hexit : (helloParMain env).exitCode = -1 := by
        simp [helloParMain, h1, hB, psiSend]
      have hops : (helloParMain env).ops = [HelloOp.fileRecv, HelloOp.queueSend] := by
        simp [helloParMain, h1, hB, psiSend]
      refine ⟨?_, ?_, fun _ _ => ⟨hexit, hops⟩, ?_, ?_, ?_⟩
      · rw [hexit]
        constructor
        · intro h; exact absurd h (by decide)
        · rintro ⟨-, hb2, -⟩; exact Bool.noConfusion hb2
      · intro hlt; exact absurd hlt h1
      · intro _ hb2 _; exact Bool.noConfusion hb2
      · intro _ hb2 _ _; exact Bool.noConfusion hb2
      · intro h; rw [hexit] at h; exact absurd h (by decide)
    | true =>
      by_cases h3 : (psiRecv env.inQueueData 512).1 < 0
      · have hexit : (helloParMain env).exitCode = -1 := by
          simp [helloParMain, h1, hB, psiSend, h3]
        have hops : (helloParMain env).ops =
            [HelloOp.fileRecv, HelloOp.queueSend, HelloOp.queueRecv] := by
          simp [helloParMain, h1, hB, psiSend, h3]
        refine ⟨?_, ?_, ?_, fun _ _ _ => ⟨hexit, hops⟩, ?_, ?_⟩
        · rw [hexit]
          constructor
          · intro h; exact absurd h (by decide)
          · rintro ⟨-, -, hc, -⟩; exact absurd h3 (not_lt.mpr hc)
        · intro hlt; exact absurd hlt h1
        · intro _ hb2; exact Bool.noConfusion hb2
        · intro _ _ hc _; exact absurd h3 (not_lt.mpr hc)
        · intro h; rw [hexit] at h; exact absurd h (by decide)
      · cases hD : env.fileSendOk with
        | false =>
          have hexit : (helloParMain env).exitCode = -1 := by
            simp [helloParMain, h1, hB, psiSend, h3, hD]
          have hops : (helloParMain env).ops =
              [HelloOp.fileRecv, HelloOp.queueSend, HelloOp.queueRecv,
                HelloOp.fileSend] := by
            simp [helloParMain, h1, hB, psiSend, h3, hD]
          refine ⟨?_, ?_, ?_, ?_, fun _ _ _ _ => ⟨hexit, hops⟩, ?_⟩
          · rw [hexit]
            constructor
            · intro h; exact absurd h (by decide)
            · rintro ⟨-, -, -, hd2⟩; exact Bool.noConfusion hd2
          · intro hlt; exact absurd hlt h1
          · intro _ hb2; exact Bool.noConfusion hb2
          · intro _ _ hlt; exact absurd hlt h3
          · intro h; rw [hexit] at h; exact absurd h (by decide)
        | true =>
          have hexit : (helloParMain env).exitCode = 0 := by
            simp [helloParMain, h1, hB, psiSend, h3, hD]
          have hops : (helloParMain env).ops =
              [HelloOp.fileRecv, HelloOp.queueSend, HelloOp.queueRecv,
                HelloOp.fileSend] := by
            simp [helloParMain, h1, hB, psiSend, h3, hD]
          refine ⟨?_, ?_, ?_, ?_, ?_, fun _ => hops⟩
          · rw [hexit]
            exact iff_of_true rfl ⟨not_lt.mp h1, rfl, not_lt.mp h3, rfl⟩
          · intro hlt; exact absurd hlt h1
          · intro _ hb2; exact Bool.noConfusion hb2
          · intro _ _ hlt; exact absurd hlt h3
          · intro _ _ _ hd2; exact Bool.noConfusion hd2

theorem claim9_hellopar_control_flow_witness :
    (helloParMain ⟨some [1], true, some [2], true⟩).exitCode = 0 ∧
    (helloParMain ⟨some [1], true, some [2], true⟩).ops =
      [HelloOp.fileRecv, HelloOp.queueSend, HelloOp.queueRecv, HelloOp.fileSend] := by
  have h := claim9_hellopar_control_flow ⟨some [1], true, some [2], true⟩
  have hexit := h.1.mpr ⟨by decide, rfl, by decide, rfl⟩
  exact ⟨hexit, h.2.2.2.2.2 hexit⟩

/-- C10: the helloPar model forwards its payloads unchanged: on a fully
successful run, the bytes (and byte count) it sends to the output queue
are exactly the bytes it received from the input file, and the bytes it
sends to the output file are exactly the bytes it received from the
input queue. -/
theorem claim10_hellopar_forwards (env : PsiEnv) (d1 d2 : List Nat)
    (h1 : env.inFileData = some d1) (h1len : d1.length ≤ 512)
    (h2 : env.queueSendOk = true)
    (h3 : env.inQueueData = some d2) (h3len : d2.length ≤ 512)
    (h4 : env.fileSendOk = true) :
    (helloParMain env).sends =
      [(SendTarget.toQueue, d1), (SendTarget.toFile, d2)] ∧
    (helloParMain env).exitCode = 0 := by
  have hr1 : psiRecv env.inFileData 512 = ((d1.length : Int), d1) := by
    simp [psiRecv, h1, h1len]
  have hr3 : psiRecv env.inQueueData 512 = ((d2.length : Int), d2) := by
    simp [psiRecv, h3, h3len]
  have hc1 : ¬((d1.length : Int) < 0) := by omega
  have hc3 : ¬((d2.length : Int) < 0) := by omega
  constructor
  · simp [helloParMain, hr1, hr3, h2, h4, psiSend, hc1, hc3]
  · simp [helloParMain, hr1, hr3, h2, h4, psiSend, hc1, hc3]

theorem claim10_hellopar_forwards_witness :
    (helloParMain ⟨some [104, 105], true, some [7, 8, 9], true⟩).sends =
      [(SendTarget.toQueue, [104, 105]), (SendTarget.toFile, [7, 8, 9])] ∧
    (helloParMain ⟨some [104, 105], true, some [7, 8, 9], true⟩).exitCode = 0 :=
  claim10_hellopar_forwards ⟨some [104, 105], true, some [7, 8, 9], true⟩
    [104, 105] [7, 8, 9] rfl (by decide) rfl rfl (by decide) rfl

theorem claim7_amended_witness :
    (outputC_table.field_names ≠ [] → isTabularDriver outputC_table.driver = true) ∧
    (isTabularDriver outputC_table.driver = true →
      Direction.output = Direction.output → outputC_table.field_names ≠ []) :=
  claim7_amended asciiIoCManifest (by decide) (Direction.output, outputC_table)
    (by decide)
